import Mathlib

/-!
# Order ledger, reconciliation and cancellation core of `BaseStrategy`

Shallow embedding of `stakemachine/strategies/basestrategy.py`.

The bot's mutable state `self.state["orders"]` is a Python dict mapping a
market name to a list of order ids.  Python dicts are modelled as
insertion-ordered association lists (`List (String × α)`); dict lookup,
assignment and key-membership are modelled by `lookupA` and `setA` below.

The Exchange Gateway (`self.dex`) is modelled by its snapshots:
* `returnOpenOrders()` : a full snapshot `List (Market × List OpenOrder)`;
* `returnOpenOrdersIds()` : an ids-only snapshot `List (Market × List OrderId)`.

A Gateway `cancel` call that raises is modelled by a predicate
`fails : OrderId → Bool`; the source wraps the call in `try/except` and
continues, so the embedding records the attempt and proceeds either way.
-/

namespace StakeMachine

abbrev Market := String

abbrev OrderId := String

/-- One record of the Gateway's full open-order snapshot (the fields of
`returnOpenOrders()` entries that `basestrategy.py` reads: `orderNumber`
and `type`). -/
structure OpenOrder where
  orderNumber : OrderId
  type : String
  deriving DecidableEq, Repr

/-- `self.state["orders"]`: market → list of owned order ids. -/
abbrev Orders := List (Market × List OrderId)

/-- Ids-only Gateway snapshot (`returnOpenOrdersIds()`), and also the shape of
`self.opened_orders` once it has been set by `loadMarket`.  The initial Python
value of `opened_orders` is the empty list `[]`, on which every key-membership
test is false; the empty association list models it exactly. -/
abbrev IdsSnapshot := List (Market × List OrderId)

/-- Full Gateway snapshot (`returnOpenOrders()`). -/
abbrev FullSnapshot := List (Market × List OpenOrder)

/-- Python dict lookup `d[k]` / `d.get(k)` on an association list. -/
def lookupA {α : Type} : List (String × α) → String → Option α
  | [], _ => none
  | (k, v) :: rest, m => if k = m then some v else lookupA rest m

/-- Python dict assignment `d[k] = v` (replaces the value of an existing key
in place, appends a new key at the end, like an insertion-ordered dict). -/
def setA {α : Type} : List (String × α) → String → α → List (String × α)
  | [], m, v => [(m, v)]
  | (k, w) :: rest, m, v => if k = m then (k, v) :: rest else (k, w) :: setA rest m v

/-- Result of `_cancel_set(toCancel)`:
`numCanceled` is the returned count, `orders` the resulting
`self.state["orders"]`, `canceled` the sequence of `orderCanceled` callbacks,
`attempts` the sequence of ids for which `self.dex.cancel` was invoked. -/
structure CancelSetResult where
  numCanceled : Nat
  orders : Orders
  canceled : List OrderId
  attempts : List OrderId
  deriving DecidableEq, Repr

/-- `BaseStrategy._cancel_set(toCancel)`: for each id, call `dex.cancel`
inside `try/except` (an exception — `fails oid = true` — is logged and
swallowed), then call `orderCanceled`, then remove the id from every market
list of `state["orders"]` where it occurs (`list.remove`, i.e. first
occurrence), and increment the counter.  The counter counts attempts, not
confirmations, and the ledger removal is not gated on success. -/
def cancelSet (fails : OrderId → Bool) : List OrderId → Orders → CancelSetResult
  | [], st => ⟨0, st, [], []⟩
  | oid :: rest, st =>
    -- try: self.dex.cancel(orderId); except: log.critical(...)
    let _attempted := fails oid
    -- for m in self.state["orders"]: if orderId in ...: ....remove(orderId)
    let st' := st.map (fun p => (p.1, if oid ∈ p.2 then p.2.erase oid else p.2))
    let r := cancelSet fails rest st'
    ⟨r.numCanceled + 1, r.orders, oid :: r.canceled, oid :: r.attempts⟩

/-- The side filter `o["type"] is side or side is "both"`.  The source compares
with Python `is` (object identity); for the interned literal `"both"` — the
only side any verified claim uses — identity coincides with string equality,
which is how it is modelled here. -/
def sideMatches (o : OpenOrder) (side : String) : Bool :=
  o.type == side || side == "both"

/-- `toCancel.add(x)`: a Python `set` modelled as a duplicate-free list in
insertion order. -/
def addOrderSet (s : List OrderId) (x : OrderId) : List OrderId :=
  if x ∈ s then s else s ++ [x]

/-- Inner loop of `cancel_all` / `cancel_this_markets`:
`for o in curOrders[m]: if o["type"] is side or side is "both": toCancel.add(o["orderNumber"])`. -/
def addAllMatching (side : String) : List OpenOrder → List OrderId → List OrderId
  | [], acc => acc
  | o :: rest, acc =>
      addAllMatching side rest (if sideMatches o side then addOrderSet acc o.orderNumber else acc)

/-- Market loop of `cancel_all`: note the guard `if m in curOrders` — a market
absent from the snapshot is skipped. -/
def cancelAllGo (cur : FullSnapshot) (side : String) : List Market → List OrderId → List OrderId
  | [], acc => acc
  | m :: rest, acc =>
    match lookupA cur m with
    | none => cancelAllGo cur side rest acc
    | some l => cancelAllGo cur side rest (addAllMatching side l acc)

/-- The candidate set built by `cancel_all(markets, side)` before
`_cancel_set` runs. -/
def cancel_all_candidates (markets : List Market) (cur : FullSnapshot) (side : String) :
    List OrderId :=
  cancelAllGo cur side markets []

/-- `BaseStrategy.cancel_all(markets, side)` with an explicit (non-empty)
markets list, a fixed Gateway snapshot and failure predicate. -/
def cancel_all (markets : List Market) (cur : FullSnapshot) (side : String)
    (fails : OrderId → Bool) (st : Orders) : CancelSetResult :=
  cancelSet fails (cancel_all_candidates markets cur side) st

/-- Inner loop of `cancel_mine` over `curOrders[m]`:
keep an order only if `m` is a key of `state["orders"]`, its id is in
`state["orders"][m]`, and the side matches. -/
def addMineMatching (stOrders : Orders) (m : Market) (side : String) :
    List OpenOrder → List OrderId → List OrderId
  | [], acc => acc
  | o :: rest, acc =>
    let acc' :=
      match lookupA stOrders m with
      | none => acc -- if m not in state["orders"]: continue
      | some ids =>
        if o.orderNumber ∈ ids then
          (if sideMatches o side then addOrderSet acc o.orderNumber else acc)
        else acc
    addMineMatching stOrders m side rest acc'

/-- Market loop of `cancel_mine`: `for currentOrderStates in curOrders[m]`
evaluates `curOrders[m]` unguarded, so a market absent from the snapshot
raises `KeyError` (modelled as `.error ()`). -/
def cancelMineGo (cur : FullSnapshot) (stOrders : Orders) (side : String) :
    List Market → List OrderId → Except Unit (List OrderId)
  | [], acc => .ok acc
  | m :: rest, acc =>
    match lookupA cur m with
    | none => .error () -- KeyError: curOrders[m]
    | some l => cancelMineGo cur stOrders side rest (addMineMatching stOrders m side l acc)

/-- The candidate set built by `cancel_mine(markets, side)` before
`_cancel_set` runs (`KeyError` as `.error ()`). -/
def cancel_mine_candidates (markets : List Market) (cur : FullSnapshot) (stOrders : Orders)
    (side : String) : Except Unit (List OrderId) :=
  cancelMineGo cur stOrders side markets []

/-- `BaseStrategy.cancel_mine(markets, side)`. -/
def cancel_mine (markets : List Market) (cur : FullSnapshot) (side : String)
    (fails : OrderId → Bool) (st : Orders) : Except Unit CancelSetResult :=
  (cancel_mine_candidates markets cur st side).map (fun s => cancelSet fails s st)

/-- Market loop of `cancel_this_markets`: `for o in orders[m]` is unguarded,
so a market absent from the snapshot raises `KeyError`. -/
def cancelThisGo (cur : FullSnapshot) (side : String) :
    List Market → List OrderId → Except Unit (List OrderId)
  | [], acc => .ok acc
  | m :: rest, acc =>
    match lookupA cur m with
    | none => .error () -- KeyError: orders[m]
    | some l => cancelThisGo cur side rest (addAllMatching side l acc)

/-- The candidate set built by `cancel_this_markets(markets, side)`. -/
def cancel_this_markets_candidates (markets : List Market) (cur : FullSnapshot)
    (side : String) : Except Unit (List OrderId) :=
  cancelThisGo cur side markets []

/-- `BaseStrategy.cancel_this_markets(markets, side)`. -/
def cancel_this_markets (markets : List Market) (cur : FullSnapshot) (side : String)
    (fails : OrderId → Bool) (st : Orders) : Except Unit CancelSetResult :=
  (cancel_this_markets_candidates markets cur side).map (fun s => cancelSet fails s st)

/-- Python iteration over a string yields its characters as 1-character
strings: `for m in "sell"` iterates `"s"`, `"e"`, `"l"`, `"l"`. -/
def pyStrChars (s : String) : List String :=
  s.toList.map (fun c => String.mk [c])

/-- `BaseStrategy.cancel_all_sell_orders()` executes `self.cancel_all("sell")`:
the positional string binds to the `markets` parameter (so `side` keeps its
default `"both"`), `if not markets` is false because `"sell"` is truthy, and
the loop `for m in markets` iterates the characters of `"sell"`. -/
def cancel_all_sell_orders (cur : FullSnapshot) (fails : OrderId → Bool)
    (st : Orders) : CancelSetResult :=
  cancel_all (pyStrChars "sell") cur "both" fails st

/-- The inner loop of `loadMarket` for one market:
`for orderid in old_orders[market]` iterates, Python-style, by an index `i`
over the very list object that the loop body mutates in place
(`self.state["orders"][market].remove(orderid)` removes the first occurrence
from the same list).  Returns the final list and the ids passed to
`orderFilled`, in order. -/
def pyForRemove (curIds : List OrderId) (i : Nat) (lst : List OrderId) :
    List OrderId × List OrderId :=
  if h : i < lst.length then
    let x := lst[i]
    if x ∈ curIds then
      pyForRemove curIds (i + 1) lst
    else
      let r := pyForRemove curIds (i + 1) (lst.erase x)
      (r.1, x :: r.2)
  else
    (lst, [])
termination_by lst.length - i
decreasing_by
  · omega
  · have hx : lst[i] ∈ lst := List.getElem_mem h
    have := List.length_erase_of_mem hx
    omega

/-- Market loop of `loadMarket`.  For each served market with a recorded
(non-empty) list, `orderid not in cur_orders[market]` looks the market up in
the ids snapshot: if the market is absent a `KeyError` is raised at the first
inner iteration (modelled as `.error`, carrying the state mutated so far and
the fill notifications already emitted, since the source mutates in place).
Removal happens unconditionally for a dead id; `orderFilled` is called only
when `notify` is true. -/
def loadMarketGo (cur : IdsSnapshot) (notify : Bool) :
    List Market → Orders → Except (Orders × List OrderId) (Orders × List OrderId)
  | [], st => .ok (st, [])
  | m :: rest, st =>
    match lookupA st m with
    | none => loadMarketGo cur notify rest st -- if market in old_orders: (absent)
    | some lst =>
      match lst with
      | [] => loadMarketGo cur notify rest st -- empty loop body: no snapshot lookup
      | _ :: _ =>
        match lookupA cur m with
        | none => .error (st, []) -- KeyError: cur_orders[market]
        | some curIds =>
          let r := pyForRemove curIds 0 lst
          let fillsM := if notify then r.2 else []
          match loadMarketGo cur notify rest (setA st m r.1) with
          | .ok (st', fills') => .ok (st', fillsM ++ fills')
          | .error (st', fills') => .error (st', fillsM ++ fills')

/-- `BaseStrategy.loadMarket(notify)` over a fixed Gateway ids snapshot `cur`
(the source fetches `returnOpenOrdersIds()` twice — once into
`self.opened_orders`, once into `cur_orders` — which coincide for a fixed
snapshot). -/
def loadMarket (settMarkets : List Market) (cur : IdsSnapshot) (notify : Bool)
    (st : Orders) : Except (Orders × List OrderId) (Orders × List OrderId) :=
  loadMarketGo cur notify settMarkets st

/-- Adoption condition of `store` for one candidate id:
`market not in self.opened_orders or orderid not in self.opened_orders[market]`. -/
def storeAdoptGo (openedM : Option (List OrderId)) : List OrderId → List OrderId
  | [] => []
  | oid :: rest =>
    if (match openedM with
        | none => true
        | some ol => decide (oid ∉ ol)) then
      oid :: storeAdoptGo openedM rest
    else
      storeAdoptGo openedM rest

/-- The ids adopted (appended and passed to `orderPlaced`) by `store` for one
market: those of the current snapshot entry that pass the adoption condition;
nothing when the market is absent from the current snapshot. -/
def adoptedOf (opened cur : IdsSnapshot) (m : Market) : List OrderId :=
  match lookupA cur m with
  | none => []
  | some curL => storeAdoptGo (lookupA opened m) curL

/-- Market loop of `store`'s bookkeeping pass: ensure the market has an entry
(`myorders[market] = []` if missing), then, if the market is in the current
ids snapshot, append every id passing the adoption condition and call
`orderPlaced` for it.  Returns the updated `state["orders"]` and the sequence
of `orderPlaced` callbacks. -/
def storeGo (opened cur : IdsSnapshot) : List Market → Orders → Orders × List OrderId
  | [], st => (st, [])
  | m :: rest, st =>
    let st1 := match lookupA st m with
      | none => setA st m []
      | some _ => st
    match lookupA cur m with
    | none => storeGo opened cur rest st1
    | some curL =>
      let adopted := storeAdoptGo (lookupA opened m) curL
      let lst := (lookupA st1 m).getD []
      let st2 := setA st1 m (lst ++ adopted)
      let r := storeGo opened cur rest st2
      (r.1, adopted ++ r.2)

/-- `BaseStrategy.store()`'s bookkeeping pass (the final `storage.store` /
safe-mode persistence step has no effect on `state["orders"]` and is omitted):
`opened` is `self.opened_orders`, `cur` the fresh `returnOpenOrdersIds()`
snapshot. -/
def store (settMarkets : List Market) (opened cur : IdsSnapshot) (st : Orders) :
    Orders × List OrderId :=
  storeGo opened cur settMarkets st

/-- The set of live ids the snapshot reports for a market (absent market =
empty set, the reading the spec gives in §4.2's edge cases). -/
def liveOf (cur : IdsSnapshot) (m : Market) : List OrderId :=
  (lookupA cur m).getD []

/-- Modelled from the spec (§4.2 Reconciliation Engine): for each served
market, remove from the ledger every id not present in the live snapshot,
keeping the live ones in order.  This is the spec's description of the
resulting ledger state, used as the reference in refinement statements. -/
def reconcileSpec (cur : IdsSnapshot) : List Market → Orders → Orders
  | [], st => st
  | m :: rest, st =>
    match lookupA st m with
    | none => reconcileSpec cur rest st
    | some lst =>
      reconcileSpec cur rest (setA st m (lst.filter (fun x => decide (x ∈ liveOf cur m))))

/-- Modelled from the spec (§4.2): the fill notifications reconciliation
emits — for each served market, in order, the recorded ids absent from the
live snapshot. -/
def reconcileFillsSpec (cur : IdsSnapshot) (markets : List Market) (st : Orders) :
    List OrderId :=
  (markets.map (fun m =>
    ((lookupA st m).getD []).filter (fun x => decide (x ∉ liveOf cur m)))).flatten

/-! ## Association-list lemmas -/

theorem lookupA_setA_self {α : Type} (st : List (String × α)) (m : String) (v : α) :
    lookupA (setA st m v) m = some v := by
  induction st with
  | nil => simp [setA, lookupA]
  | cons p rest ih =>
    obtain ⟨k, w⟩ := p
    by_cases hk : k = m
    · simp [setA, hk, lookupA]
    · simp [setA, hk, lookupA, ih]

theorem lookupA_setA_ne {α : Type} (st : List (String × α)) (m m' : String) (v : α)
    (h : m' ≠ m) : lookupA (setA st m v) m' = lookupA st m' := by
  induction st with
  | nil =>
    have h' : m ≠ m' := fun hh => h hh.symm
    simp [setA, lookupA, h']
  | cons p rest ih =>
    obtain ⟨k, w⟩ := p
    by_cases hk : k = m
    · subst hk
      have hk' : ¬(k = m') := fun hh => h hh.symm
      simp [setA, lookupA, hk']
    · simp [setA, hk, lookupA, ih]

theorem setA_self {α : Type} (st : List (String × α)) (m : String) (v : α)
    (h : lookupA st m = some v) : setA st m v = st := by
  induction st with
  | nil => simp [lookupA] at h
  | cons p rest ih =>
    obtain ⟨k, w⟩ := p
    by_cases hk : k = m
    · simp [lookupA, hk] at h
      simp [setA, hk, h]
    · simp [lookupA, hk] at h
      simp [setA, hk, ih h]

theorem lookupA_mem {α : Type} (st : List (String × α)) (m : String) (v : α)
    (h : lookupA st m = some v) : (m, v) ∈ st := by
  induction st with
  | nil => simp [lookupA] at h
  | cons p rest ih =>
    obtain ⟨k, w⟩ := p
    by_cases hk : k = m
    · simp [lookupA, hk] at h
      simp [hk, h]
    · simp [lookupA, hk] at h
      exact List.mem_cons_of_mem _ (ih h)

/-! ## Unfolding lemmas for the in-place removal loop of `loadMarket` -/

theorem pyForRemove_stop (curIds : List OrderId) (i : Nat) (lst : List OrderId)
    (h : lst.length ≤ i) : pyForRemove curIds i lst = (lst, []) := by
  rw [pyForRemove.eq_def]
  rw [dif_neg (by omega)]

theorem pyForRemove_live (curIds : List OrderId) (i : Nat) (lst : List OrderId)
    (h : i < lst.length) (hx : lst[i] ∈ curIds) :
    pyForRemove curIds i lst = pyForRemove curIds (i + 1) lst := by
  rw [pyForRemove.eq_def]
  rw [dif_pos h]
  simp only [hx, if_pos]

theorem pyForRemove_dead (curIds : List OrderId) (i : Nat) (lst : List OrderId)
    (h : i < lst.length) (hx : lst[i] ∉ curIds) :
    pyForRemove curIds i lst =
      ((pyForRemove curIds (i + 1) (lst.erase lst[i])).1,
        lst[i] :: (pyForRemove curIds (i + 1) (lst.erase lst[i])).2) := by
  rw [pyForRemove.eq_def]
  rw [dif_pos h]
  simp only [hx, if_neg, ite_false]

theorem erase_get_of_nodup :
    ∀ (lst : List OrderId) (i : Nat) (h : i < lst.length), lst.Nodup →
      lst.erase lst[i] = lst.take i ++ lst.drop (i + 1) := by
  intro lst
  induction lst with
  | nil => intro i h _; simp at h
  | cons a rest ih =>
    intro i h hnd
    match i with
    | 0 => simp [List.erase_cons_head]
    | Nat.succ j =>
      have hj : j < rest.length := by simpa using h
      have hget : (a :: rest)[j + 1] = rest[j] := List.getElem_cons_succ a rest j h
      rw [hget]
      have hmem : rest[j] ∈ rest := List.getElem_mem hj
      have hna : a ∉ rest := (List.nodup_cons.mp hnd).1
      have hne : ¬((a == rest[j]) = true) := by
        intro hb
        exact hna (by rw [eq_of_beq hb]; exact hmem)
      rw [List.erase_cons_tail hne]
      rw [ih j hj (List.nodup_cons.mp hnd).2]
      simp [List.take_succ_cons, List.drop_succ_cons]

/-- Exact behaviour of the in-place removal loop on a duplicate-free list in
which no two consecutive entries are both dead: it keeps exactly the live
ids (in order) and reports exactly the dead ids (in order). -/
theorem pyForRemove_spec (curIds : List OrderId) :
    ∀ (n i : Nat) (lst : List OrderId), lst.length - i ≤ n → lst.Nodup →
      List.Chain' (fun a b => a ∈ curIds ∨ b ∈ curIds) (lst.drop i) →
      pyForRemove curIds i lst =
        (lst.take i ++ (lst.drop i).filter (fun x => decide (x ∈ curIds)),
          (lst.drop i).filter (fun x => decide (x ∉ curIds))) := by
  intro n
  induction n with
  | zero =>
    intro i lst hn hnd hch
    have hle : lst.length ≤ i := by omega
    rw [pyForRemove_stop curIds i lst hle]
    simp [List.drop_eq_nil_of_le hle, List.take_of_length_le hle]
  | succ n ih =>
    intro i lst hn hnd hch
    by_cases h : i < lst.length
    · have hdrop : lst.drop i = lst[i] :: lst.drop (i + 1) := List.drop_eq_getElem_cons h
      have hlen_take : (lst.take i).length = i := by
        rw [List.length_take]
        exact inf_eq_left.mpr h.le
      by_cases hx : lst[i] ∈ curIds
      · rw [pyForRemove_live curIds i lst h hx]
        have hch' : List.Chain' (fun a b => a ∈ curIds ∨ b ∈ curIds) (lst.drop (i + 1)) := by
          rw [hdrop] at hch
          exact hch.tail
        rw [ih (i + 1) lst (by omega) hnd hch']
        have hts : lst.take (i + 1) = lst.take i ++ [lst[i]] := by
          rw [List.take_succ, List.getElem?_eq_getElem h]
          rfl
        rw [hdrop]
        simp [List.filter_cons, hx, List.append_assoc, -List.getElem_cons_drop]
        rw [hts, List.append_assoc, List.singleton_append]
      · rw [pyForRemove_dead curIds i lst h hx]
        have herase : lst.erase lst[i] = lst.take i ++ lst.drop (i + 1) :=
          erase_get_of_nodup lst i h hnd
        have hnd' : (lst.erase lst[i]).Nodup := hnd.erase _
        rw [hdrop] at hch
        cases hd : lst.drop (i + 1) with
        | nil =>
          have her2 : lst.erase lst[i] = lst.take i := by
            rw [herase, hd, List.append_nil]
          rw [her2]
          rw [pyForRemove_stop curIds (i + 1) (lst.take i) (by rw [hlen_take]; omega)]
          rw [hdrop, hd]
          simp [List.filter_cons, hx, -List.getElem_cons_drop]
        | cons y rest2 =>
          rw [hd] at hch
          have hy : y ∈ curIds := by
            rcases (List.chain'_cons.mp hch).1 with h1 | h2
            · exact absurd h1 hx
            · exact h2
          have hch2 : List.Chain' (fun a b => a ∈ curIds ∨ b ∈ curIds) rest2 :=
            hch.tail.tail
          have hlst' : lst.erase lst[i] = lst.take i ++ y :: rest2 := by
            rw [herase, hd]
          have hlenE : (lst.erase lst[i]).length - (i + 1) ≤ n := by
            have hmem : lst[i] ∈ lst := List.getElem_mem h
            have := List.length_erase_of_mem hmem
            omega
          have hdrop' : (lst.erase lst[i]).drop (i + 1) = rest2 := by
            rw [hlst']
            rw [show i + 1 = (lst.take i).length + 1 by rw [hlen_take]]
            rw [List.drop_append]
            rfl
          have htake' : (lst.erase lst[i]).take (i + 1) = lst.take i ++ [y] := by
            rw [hlst']
            rw [show i + 1 = (lst.take i).length + 1 by rw [hlen_take]]
            rw [List.take_append]
            rfl
          have hchE : List.Chain' (fun a b => a ∈ curIds ∨ b ∈ curIds)
              ((lst.erase lst[i]).drop (i + 1)) := by
            rw [hdrop']
            exact hch2
          rw [ih (i + 1) (lst.erase lst[i]) hlenE hnd' hchE]
          rw [hdrop', htake', hdrop, hd]
          simp [List.filter_cons, hx, hy, List.append_assoc, -List.getElem_cons_drop]
    · rw [pyForRemove_stop curIds i lst (by omega)]
      have hle : lst.length ≤ i := by omega
      simp [List.drop_eq_nil_of_le hle, List.take_of_length_le hle]

/-- The removal loop never introduces a duplicate into the mutated list. -/
theorem pyForRemove_nodup (curIds : List OrderId) :
    ∀ (n i : Nat) (lst : List OrderId), lst.length - i ≤ n → lst.Nodup →
      (pyForRemove curIds i lst).1.Nodup := by
  intro n
  induction n with
  | zero =>
    intro i lst hn hnd
    rw [pyForRemove_stop curIds i lst (by omega)]
    exact hnd
  | succ n ih =>
    intro i lst hn hnd
    by_cases h : i < lst.length
    · by_cases hx : lst[i] ∈ curIds
      · rw [pyForRemove_live curIds i lst h hx]
        exact ih (i + 1) lst (by omega) hnd
      · rw [pyForRemove_dead curIds i lst h hx]
        have hmem : lst[i] ∈ lst := List.getElem_mem h
        have := List.length_erase_of_mem hmem
        exact ih (i + 1) _ (by omega) (hnd.erase _)
    · rw [pyForRemove_stop curIds i lst (by omega)]
      exact hnd

/-- When every id of the list is live, the removal loop changes nothing and
emits no fill. -/
theorem pyForRemove_all_live (curIds : List OrderId) :
    ∀ (n i : Nat) (lst : List OrderId), lst.length - i ≤ n →
      (∀ x ∈ lst, x ∈ curIds) → pyForRemove curIds i lst = (lst, []) := by
  intro n
  induction n with
  | zero =>
    intro i lst hn hall
    exact pyForRemove_stop curIds i lst (by omega)
  | succ n ih =>
    intro i lst hn hall
    by_cases h : i < lst.length
    · have hx : lst[i] ∈ curIds := hall _ (List.getElem_mem h)
      rw [pyForRemove_live curIds i lst h hx]
      exact ih (i + 1) lst (by omega) hall
    · exact pyForRemove_stop curIds i lst (by omega)

/-! ## Reconciliation lemmas -/

theorem reconcileFillsSpec_congr (cur : IdsSnapshot) (markets : List Market)
    (st1 st2 : Orders) (h : ∀ m ∈ markets, lookupA st1 m = lookupA st2 m) :
    reconcileFillsSpec cur markets st1 = reconcileFillsSpec cur markets st2 := by
  unfold reconcileFillsSpec
  congr 1
  exact List.map_congr_left (fun m hm => by rw [h m hm])

/-- `loadMarket` with notifications, on a ledger in which (for every served
market) the recorded ids are duplicate-free and no two consecutive recorded
ids are both dead, refines the spec's reconciliation: it succeeds, prunes
exactly the dead ids and reports exactly the dead ids. -/
theorem loadMarketGo_reconcile (cur : IdsSnapshot) :
    ∀ (markets : List Market) (st : Orders), markets.Nodup →
      (∀ m ∈ markets, ((lookupA st m).getD []).Nodup ∧
        List.Chain' (fun a b => a ∈ liveOf cur m ∨ b ∈ liveOf cur m)
          ((lookupA st m).getD []) ∧
        ((lookupA st m).getD [] ≠ [] → (lookupA cur m).isSome)) →
      loadMarketGo cur true markets st =
        .ok (reconcileSpec cur markets st, reconcileFillsSpec cur markets st) := by
  intro markets
  induction markets with
  | nil => intro st _ _; simp [loadMarketGo, reconcileSpec, reconcileFillsSpec]
  | cons m rest ih =>
    intro st hmnd h
    have hmn : m ∉ rest := (List.nodup_cons.mp hmnd).1
    have hrnd : rest.Nodup := (List.nodup_cons.mp hmnd).2
    have hm := h m (by simp)
    cases hst : lookupA st m with
    | none =>
      have hrec := ih st hrnd (fun m' hm' => h m' (List.mem_cons_of_mem m hm'))
      simp only [loadMarketGo, reconcileSpec, hst]
      rw [hrec]
      simp [reconcileFillsSpec, hst]
    | some lst =>
      cases lst with
      | nil =>
        have hset : setA st m ([] : List OrderId) = st := setA_self st m [] hst
        have hrec := ih st hrnd (fun m' hm' => h m' (List.mem_cons_of_mem m hm'))
        simp only [loadMarketGo, reconcileSpec, hst, List.filter_nil, hset]
        rw [hrec]
        simp [reconcileFillsSpec, hst]
      | cons a tl =>
        rw [hst] at hm
        have hnd : (a :: tl).Nodup := by simpa using hm.1
        have hch : List.Chain' (fun x y => x ∈ liveOf cur m ∨ y ∈ liveOf cur m) (a :: tl) := by
          simpa using hm.2.1
        obtain ⟨curIds, hcur⟩ := Option.isSome_iff_exists.mp (hm.2.2 (by simp))
        have hlive : liveOf cur m = curIds := by simp [liveOf, hcur]
        rw [hlive] at hch
        have hr : pyForRemove curIds 0 (a :: tl) =
            ((a :: tl).filter (fun x => decide (x ∈ curIds)),
              (a :: tl).filter (fun x => decide (x ∉ curIds))) := by
          have := pyForRemove_spec curIds (a :: tl).length 0 (a :: tl) (by omega) hnd
            (by simpa using hch)
          simpa using this
        have hst2 : ∀ m' ∈ rest, lookupA (setA st m ((a :: tl).filter
            (fun x => decide (x ∈ curIds)))) m' = lookupA st m' := by
          intro m' hm'
          exact lookupA_setA_ne st m m' _ (fun he => hmn (he ▸ hm'))
        have hrec := ih (setA st m ((a :: tl).filter (fun x => decide (x ∈ curIds)))) hrnd
          (fun m' hm' => by rw [hst2 m' hm']; exact h m' (List.mem_cons_of_mem m hm'))
        simp only [loadMarketGo, reconcileSpec, hst, hcur, hr]
        rw [hrec]
        have hfills : reconcileFillsSpec cur rest (setA st m ((a :: tl).filter
            (fun x => decide (x ∈ curIds)))) = reconcileFillsSpec cur rest st :=
          reconcileFillsSpec_congr cur rest _ _ hst2
        rw [hfills, hlive]
        simp [reconcileFillsSpec, hst, hlive]

/-- A ledger whose recorded ids are all live is a fixed point of
reconciliation: `loadMarket` succeeds, changes nothing and notifies nothing. -/
theorem loadMarketGo_all_live (cur : IdsSnapshot) (notify : Bool) :
    ∀ (markets : List Market) (st : Orders),
      (∀ m ∈ markets, (∀ x ∈ (lookupA st m).getD [], x ∈ liveOf cur m) ∧
        ((lookupA st m).getD [] ≠ [] → (lookupA cur m).isSome)) →
      loadMarketGo cur notify markets st = .ok (st, []) := by
  intro markets
  induction markets with
  | nil => intro st _; simp [loadMarketGo]
  | cons m rest ih =>
    intro st h
    have hm := h m (by simp)
    cases hst : lookupA st m with
    | none =>
      simp only [loadMarketGo, hst]
      exact ih st (fun m' hm' => h m' (List.mem_cons_of_mem m hm'))
    | some lst =>
      cases lst with
      | nil =>
        simp only [loadMarketGo, hst]
        exact ih st (fun m' hm' => h m' (List.mem_cons_of_mem m hm'))
      | cons a tl =>
        rw [hst] at hm
        obtain ⟨curIds, hcur⟩ := Option.isSome_iff_exists.mp (hm.2 (by simp))
        have hlive : liveOf cur m = curIds := by simp [liveOf, hcur]
        have hall : ∀ x ∈ (a :: tl), x ∈ curIds := by
          intro x hx
          have := hm.1 x (by simpa using hx)
          rwa [hlive] at this
        have hr : pyForRemove curIds 0 (a :: tl) = (a :: tl, []) :=
          pyForRemove_all_live curIds (a :: tl).length 0 (a :: tl) (by omega) hall
        have hset : setA st m (a :: tl) = st := setA_self st m (a :: tl) hst
        simp only [loadMarketGo, hst, hcur, hr, hset]
        rw [ih st (fun m' hm' => h m' (List.mem_cons_of_mem m hm'))]
        simp

theorem reconcileSpec_lookup_not_mem (cur : IdsSnapshot) :
    ∀ (markets : List Market) (st : Orders) (m : Market), m ∉ markets →
      lookupA (reconcileSpec cur markets st) m = lookupA st m := by
  intro markets
  induction markets with
  | nil => intro st m _; simp [reconcileSpec]
  | cons m0 rest ih =>
    intro st m hm
    have hne : m ≠ m0 := fun he => hm (he ▸ List.mem_cons_self m0 rest)
    have hmr : m ∉ rest := fun hr => hm (List.mem_cons_of_mem m0 hr)
    cases hst : lookupA st m0 with
    | none => simp only [reconcileSpec, hst]; exact ih st m hmr
    | some lst =>
      simp only [reconcileSpec, hst]
      rw [ih _ m hmr]
      exact lookupA_setA_ne st m0 m _ hne

theorem reconcileSpec_lookup_mem (cur : IdsSnapshot) :
    ∀ (markets : List Market) (st : Orders) (m : Market), markets.Nodup → m ∈ markets →
      lookupA (reconcileSpec cur markets st) m =
        (lookupA st m).map (fun lst => lst.filter (fun x => decide (x ∈ liveOf cur m))) := by
  intro markets
  induction markets with
  | nil => intro st m _ hm; simp at hm
  | cons m0 rest ih =>
    intro st m hnd hm
    have hmn : m0 ∉ rest := (List.nodup_cons.mp hnd).1
    have hrnd : rest.Nodup := (List.nodup_cons.mp hnd).2
    by_cases he : m = m0
    · subst he
      cases hst : lookupA st m with
      | none =>
        simp only [reconcileSpec, hst]
        rw [reconcileSpec_lookup_not_mem cur rest st m hmn, hst]
        rfl
      | some lst =>
        simp only [reconcileSpec, hst]
        rw [reconcileSpec_lookup_not_mem cur rest _ m hmn]
        rw [lookupA_setA_self]
        rfl
    · have hmr : m ∈ rest := by
        rcases List.mem_cons.mp hm with h1 | h2
        · exact absurd h1 he
        · exact h2
      cases hst : lookupA st m0 with
      | none => simp only [reconcileSpec, hst]; exact ih st m hrnd hmr
      | some lst =>
        simp only [reconcileSpec, hst]
        rw [ih _ m hrnd hmr]
        rw [lookupA_setA_ne st m0 m _ he]

/-- Reconciliation of a market that is absent from the live snapshot does not
raise only when the ledger records no id for it; under that condition the
whole pass succeeds. -/
theorem loadMarketGo_absent (cur : IdsSnapshot) (notify : Bool) :
    ∀ (markets : List Market) (st : Orders),
      (∀ m ∈ markets, lookupA cur m = none → (lookupA st m).getD [] = []) →
      ∃ st' fills, loadMarketGo cur notify markets st = .ok (st', fills) := by
  intro markets
  induction markets with
  | nil => intro st _; exact ⟨st, [], by simp [loadMarketGo]⟩
  | cons m rest ih =>
    intro st h
    cases hst : lookupA st m with
    | none =>
      obtain ⟨st', fills, hrec⟩ := ih st (fun m' hm' => h m' (List.mem_cons_of_mem m hm'))
      exact ⟨st', fills, by simp only [loadMarketGo, hst]; exact hrec⟩
    | some lst =>
      cases lst with
      | nil =>
        obtain ⟨st', fills, hrec⟩ := ih st (fun m' hm' => h m' (List.mem_cons_of_mem m hm'))
        exact ⟨st', fills, by simp only [loadMarketGo, hst]; exact hrec⟩
      | cons a tl =>
        cases hcur : lookupA cur m with
        | none =>
          have := h m (by simp) hcur
          rw [hst] at this
          simp at this
        | some curIds =>
          have hnext : ∀ m' ∈ rest, lookupA cur m' = none →
              (lookupA (setA st m (pyForRemove curIds 0 (a :: tl)).1) m').getD [] = [] := by
            intro m' hm' hcur'
            by_cases he : m' = m
            · rw [he, hcur] at hcur'
              exact absurd hcur' (by simp)
            · rw [lookupA_setA_ne st m m' _ he]
              exact h m' (List.mem_cons_of_mem m hm') hcur'
          obtain ⟨st', fills, hrec⟩ := ih (setA st m (pyForRemove curIds 0 (a :: tl)).1) hnext
          refine ⟨st', (if notify then (pyForRemove curIds 0 (a :: tl)).2 else []) ++ fills, ?_⟩
          simp only [loadMarketGo, hst, hcur]
          rw [hrec]

/-- `setA` with a duplicate-free value keeps every market list duplicate-free. -/
theorem setA_nodup_values (st : Orders) (m : Market) (v : List OrderId)
    (hst : ∀ p ∈ st, (p.2).Nodup) (hv : v.Nodup) : ∀ p ∈ setA st m v, (p.2).Nodup := by
  induction st with
  | nil =>
    intro p hp
    simp [setA] at hp
    rw [hp]
    exact hv
  | cons q rest ih =>
    obtain ⟨k, w⟩ := q
    intro p hp
    by_cases hk : k = m
    · simp only [setA, if_pos hk] at hp
      rcases List.mem_cons.mp hp with h1 | h2
      · rw [h1]; exact hv
      · exact hst p (List.mem_cons_of_mem _ h2)
    · simp only [setA, if_neg hk] at hp
      rcases List.mem_cons.mp hp with h1 | h2
      · rw [h1]; exact hst (k, w) (by simp)
      · exact ih (fun q hq => hst q (List.mem_cons_of_mem _ hq)) p h2

theorem lookupA_nodup (st : Orders) (m : Market) (l : List OrderId)
    (hst : ∀ p ∈ st, (p.2).Nodup) (h : lookupA st m = some l) : l.Nodup :=
  hst (m, l) (lookupA_mem st m l h)

/-- Reconciliation never introduces a duplicate into any market list. -/
theorem loadMarketGo_nodup (cur : IdsSnapshot) (notify : Bool) :
    ∀ (markets : List Market) (st st' : Orders) (fills : List OrderId),
      (∀ p ∈ st, (p.2).Nodup) →
      loadMarketGo cur notify markets st = .ok (st', fills) →
      ∀ p ∈ st', (p.2).Nodup := by
  intro markets
  induction markets with
  | nil =>
    intro st st' fills hst heq
    simp only [loadMarketGo] at heq
    obtain ⟨h1, _⟩ : st = st' ∧ [] = fills := by
      constructor <;> [skip; skip] <;> cases heq <;> rfl
    rw [← h1]
    exact hst
  | cons m rest ih =>
    intro st st' fills hst heq
    cases hstm : lookupA st m with
    | none =>
      simp only [loadMarketGo, hstm] at heq
      exact ih st st' fills hst heq
    | some lst =>
      cases lst with
      | nil =>
        simp only [loadMarketGo, hstm] at heq
        exact ih st st' fills hst heq
      | cons a tl =>
        cases hcur : lookupA cur m with
        | none => simp [loadMarketGo, hstm, hcur] at heq
        | some curIds =>
          simp only [loadMarketGo, hstm, hcur] at heq
          have hndlst : (a :: tl).Nodup := lookupA_nodup st m _ hst hstm
          have hnd1 : (pyForRemove curIds 0 (a :: tl)).1.Nodup :=
            pyForRemove_nodup curIds (a :: tl).length 0 (a :: tl) (by omega) hndlst
          have hst2 : ∀ p ∈ setA st m (pyForRemove curIds 0 (a :: tl)).1, (p.2).Nodup :=
            setA_nodup_values st m _ hst hnd1
          cases hrec : loadMarketGo cur notify rest
              (setA st m (pyForRemove curIds 0 (a :: tl)).1) with
          | error e => rw [hrec] at heq; simp at heq
          | ok pr =>
            rw [hrec] at heq
            obtain ⟨st'', fills''⟩ := pr
            simp only [Except.ok.injEq, Prod.mk.injEq] at heq
            obtain ⟨h1, _⟩ := heq
            rw [← h1]
            exact ih _ _ _ hst2 hrec

/-! ## Cancellation-execution lemmas -/

theorem cancelSet_count (fails : OrderId → Bool) :
    ∀ (toCancel : List OrderId) (st : Orders),
      (cancelSet fails toCancel st).attempts = toCancel ∧
      (cancelSet fails toCancel st).numCanceled = toCancel.length := by
  intro toCancel
  induction toCancel with
  | nil => intro st; exact ⟨rfl, rfl⟩
  | cons oid rest ih =>
    intro st
    simp only [cancelSet]
    constructor
    · rw [(ih _).1]
    · rw [(ih _).2]
      rfl

theorem eraseMap_nodup (oid : OrderId) (st : Orders) (hst : ∀ p ∈ st, (p.2).Nodup) :
    ∀ p ∈ st.map (fun p => (p.1, if oid ∈ p.2 then p.2.erase oid else p.2)), (p.2).Nodup := by
  intro p hp
  obtain ⟨q, hq, hfq⟩ := List.mem_map.mp hp
  subst hfq
  show (if oid ∈ q.2 then q.2.erase oid else q.2).Nodup
  by_cases hin : oid ∈ q.2
  · rw [if_pos hin]
    exact (hst q hq).erase oid
  · rw [if_neg hin]
    exact hst q hq

theorem cancelSet_orders_shape (fails : OrderId → Bool) :
    ∀ (toCancel : List OrderId) (st : Orders),
      ∀ p ∈ (cancelSet fails toCancel st).orders,
        ∃ q ∈ st, p.1 = q.1 ∧ ∀ x ∈ p.2, x ∈ q.2 := by
  intro toCancel
  induction toCancel with
  | nil => intro st p hp; exact ⟨p, hp, rfl, fun x hx => hx⟩
  | cons oid rest ih =>
    intro st p hp
    simp only [cancelSet] at hp
    obtain ⟨q', hq', h1, h2⟩ := ih _ p hp
    obtain ⟨q, hq, hfq⟩ := List.mem_map.mp hq'
    subst hfq
    refine ⟨q, hq, h1, ?_⟩
    intro x hx
    have hx2 := h2 x hx
    have hx3 : x ∈ (if oid ∈ q.2 then q.2.erase oid else q.2) := hx2
    by_cases hin : oid ∈ q.2
    · rw [if_pos hin] at hx3
      exact (List.erase_sublist oid q.2).subset hx3
    · rwa [if_neg hin] at hx3

theorem cancelSet_nodup (fails : OrderId → Bool) :
    ∀ (toCancel : List OrderId) (st : Orders), (∀ p ∈ st, (p.2).Nodup) →
      ∀ p ∈ (cancelSet fails toCancel st).orders, (p.2).Nodup := by
  intro toCancel
  induction toCancel with
  | nil => intro st hst p hp; exact hst p hp
  | cons oid rest ih =>
    intro st hst p hp
    simp only [cancelSet] at hp
    exact ih _ (eraseMap_nodup oid st hst) p hp

theorem cancelSet_removes_all (fails : OrderId → Bool) :
    ∀ (toCancel : List OrderId) (st : Orders), (∀ p ∈ st, (p.2).Nodup) →
      ∀ oid ∈ toCancel, ∀ p ∈ (cancelSet fails toCancel st).orders, oid ∉ p.2 := by
  intro toCancel
  induction toCancel with
  | nil => intro st _ oid hoid; simp at hoid
  | cons oid0 rest ih =>
    intro st hst oid hoid p hp
    simp only [cancelSet] at hp
    rcases List.mem_cons.mp hoid with he | hr
    · subst he
      obtain ⟨q', hq', h1, h2⟩ := cancelSet_orders_shape fails rest _ p hp
      obtain ⟨q, hq, hfq⟩ := List.mem_map.mp hq'
      subst hfq
      intro hmem
      have hx2 := h2 oid hmem
      have hx3 : oid ∈ (if oid ∈ q.2 then q.2.erase oid else q.2) := hx2
      by_cases hin : oid ∈ q.2
      · rw [if_pos hin] at hx3
        exact ((List.Nodup.mem_erase_iff (hst q hq)).mp hx3).1 rfl
      · rw [if_neg hin] at hx3
        exact hin hx3
    · exact ih _ (eraseMap_nodup oid0 st hst) oid hr p hp

/-! ## Store bookkeeping lemmas -/

theorem storeAdoptGo_eq_filter (openedM : Option (List OrderId)) :
    ∀ (l : List OrderId), storeAdoptGo openedM l =
      l.filter (fun oid => match openedM with
        | none => true
        | some ol => decide (oid ∉ ol)) := by
  cases openedM with
  | none =>
    intro l
    induction l with
    | nil => rfl
    | cons oid rest ih => simp [storeAdoptGo, List.filter_cons, ih]
  | some ol =>
    intro l
    induction l with
    | nil => rfl
    | cons oid rest ih =>
      simp only [storeAdoptGo, List.filter_cons]
      by_cases hc : oid ∈ ol
      · simp [hc, ih]
      · simp [hc, ih]

theorem storeGo_spec (opened cur : IdsSnapshot) :
    ∀ (markets : List Market) (st : Orders), markets.Nodup →
      (∀ m ∈ markets, lookupA (storeGo opened cur markets st).1 m =
        some ((lookupA st m).getD [] ++ adoptedOf opened cur m)) ∧
      (∀ m, m ∉ markets → lookupA (storeGo opened cur markets st).1 m = lookupA st m) ∧
      (storeGo opened cur markets st).2 = (markets.map (adoptedOf opened cur)).flatten := by
  intro markets
  induction markets with
  | nil =>
    intro st _
    refine ⟨by simp, fun m _ => rfl, by simp [storeGo]⟩
  | cons m rest ih =>
    intro st hnd
    have hmn : m ∉ rest := (List.nodup_cons.mp hnd).1
    have hrnd : rest.Nodup := (List.nodup_cons.mp hnd).2
    cases hst : lookupA st m with
    | none =>
      have hl1 : lookupA (setA st m []) m = some ((lookupA st m).getD []) := by
        rw [lookupA_setA_self, hst]
        rfl
      have hl1' : ∀ m', m' ≠ m → lookupA (setA st m []) m' = lookupA st m' :=
        fun m' h => lookupA_setA_ne st m m' [] h
      cases hcur : lookupA cur m with
      | none =>
        obtain ⟨ih1, ih2, ih3⟩ := ih (setA st m []) hrnd
        simp only [storeGo, hst, hcur]
        refine ⟨?_, ?_, ?_⟩
        · intro m' hm'
          rcases List.mem_cons.mp hm' with he | hr
          · subst he
            rw [ih2 m' hmn, hl1]
            simp [adoptedOf, hcur]
          · have hne : m' ≠ m := fun he2 => hmn (he2 ▸ hr)
            rw [ih1 m' hr, hl1' m' hne]
        · intro m' hm'
          have hne : m' ≠ m := fun he2 => hm' (he2 ▸ List.mem_cons_self m rest)
          rw [ih2 m' (fun hr => hm' (List.mem_cons_of_mem m hr)), hl1' m' hne]
        · rw [ih3]
          simp [adoptedOf, hcur]
      | some curL =>
        have hl1b : lookupA (setA st m []) m = some ([] : List OrderId) :=
          lookupA_setA_self st m []
        have hadopt : storeAdoptGo (lookupA opened m) curL = adoptedOf opened cur m := by
          simp [adoptedOf, hcur]
        obtain ⟨ih1, ih2, ih3⟩ := ih (setA (setA st m []) m
          ([] ++ storeAdoptGo (lookupA opened m) curL)) hrnd
        simp only [storeGo, hst, hcur, hl1b, Option.getD_some]
        refine ⟨?_, ?_, ?_⟩
        · intro m' hm'
          rcases List.mem_cons.mp hm' with he | hr
          · subst he
            rw [ih2 m' hmn, lookupA_setA_self, hadopt, hst]
            simp
          · have hne : m' ≠ m := fun he2 => hmn (he2 ▸ hr)
            rw [ih1 m' hr, lookupA_setA_ne _ m m' _ hne, hl1' m' hne]
        · intro m' hm'
          have hne : m' ≠ m := fun he2 => hm' (he2 ▸ List.mem_cons_self m rest)
          rw [ih2 m' (fun hr => hm' (List.mem_cons_of_mem m hr)),
            lookupA_setA_ne _ m m' _ hne, hl1' m' hne]
        · rw [ih3, hadopt]
          simp
    | some lst =>
      cases hcur : lookupA cur m with
      | none =>
        obtain ⟨ih1, ih2, ih3⟩ := ih st hrnd
        simp only [storeGo, hst, hcur]
        refine ⟨?_, ?_, ?_⟩
        · intro m' hm'
          rcases List.mem_cons.mp hm' with he | hr
          · subst he
            rw [ih2 m' hmn, hst]
            simp [adoptedOf, hcur]
          · exact ih1 m' hr
        · intro m' hm'
          exact ih2 m' (fun hr => hm' (List.mem_cons_of_mem m hr))
        · rw [ih3]
          simp [adoptedOf, hcur]
      | some curL =>
        have hadopt : storeAdoptGo (lookupA opened m) curL = adoptedOf opened cur m := by
          simp [adoptedOf, hcur]
        obtain ⟨ih1, ih2, ih3⟩ := ih (setA st m
          (lst ++ storeAdoptGo (lookupA opened m) curL)) hrnd
        simp only [storeGo, hst, hcur, Option.getD_some]
        refine ⟨?_, ?_, ?_⟩
        · intro m' hm'
          rcases List.mem_cons.mp hm' with he | hr
          · subst he
            rw [ih2 m' hmn, lookupA_setA_self, hadopt, hst]
            rfl
          · have hne : m' ≠ m := fun he2 => hmn (he2 ▸ hr)
            rw [ih1 m' hr, lookupA_setA_ne _ m m' _ hne]
        · intro m' hm'
          have hne : m' ≠ m := fun he2 => hm' (he2 ▸ List.mem_cons_self m rest)
          rw [ih2 m' (fun hr => hm' (List.mem_cons_of_mem m hr)),
            lookupA_setA_ne _ m m' _ hne]
        · rw [ih3, hadopt]
          simp

/-- The adopted ids of one market's store pass. -/
theorem adoptedOf_nodup (opened cur : IdsSnapshot) (m : Market)
    (h : ∀ curL, lookupA cur m = some curL → curL.Nodup) :
    (adoptedOf opened cur m).Nodup := by
  unfold adoptedOf
  cases hcur : lookupA cur m with
  | none => exact List.nodup_nil
  | some curL =>
    show (storeAdoptGo (lookupA opened m) curL).Nodup
    rw [storeAdoptGo_eq_filter]
    exact (h curL hcur).filter _

/-- The store bookkeeping pass keeps every market list duplicate-free,
provided no adopted id is already recorded for its market. -/
theorem storeGo_nodup (opened cur : IdsSnapshot) :
    ∀ (markets : List Market) (st : Orders), markets.Nodup →
      (∀ p ∈ st, (p.2).Nodup) →
      (∀ m curL, lookupA cur m = some curL → curL.Nodup) →
      (∀ m ∈ markets, ∀ oid ∈ adoptedOf opened cur m,
        ∀ l, lookupA st m = some l → oid ∉ l) →
      ∀ p ∈ (storeGo opened cur markets st).1, (p.2).Nodup := by
  intro markets
  induction markets with
  | nil => intro st _ hst _ _ p hp; exact hst p hp
  | cons m rest ih =>
    intro st hnd hst hcur hdisj
    have hmn : m ∉ rest := (List.nodup_cons.mp hnd).1
    have hrnd : rest.Nodup := (List.nodup_cons.mp hnd).2
    have hdisj' : ∀ (st2 : Orders), (∀ m' ∈ rest, lookupA st2 m' = lookupA st m') →
        ∀ m' ∈ rest, ∀ oid ∈ adoptedOf opened cur m', ∀ l, lookupA st2 m' = some l → oid ∉ l := by
      intro st2 hLook m' hm' oid hoid l hl
      rw [hLook m' hm'] at hl
      exact hdisj m' (List.mem_cons_of_mem m hm') oid hoid l hl
    have hadND : (adoptedOf opened cur m).Nodup := adoptedOf_nodup opened cur m (hcur m)
    cases hst0 : lookupA st m with
    | none =>
      have hst1 : ∀ p ∈ setA st m [], (p.2).Nodup := setA_nodup_values st m [] hst List.nodup_nil
      cases hcur0 : lookupA cur m with
      | none =>
        simp only [storeGo, hst0, hcur0]
        exact ih (setA st m []) hrnd hst1 hcur
          (hdisj' _ (fun m' hm' => lookupA_setA_ne st m m' []
            (fun he => hmn (he ▸ hm'))))
      | some curL =>
        have hadopt : storeAdoptGo (lookupA opened m) curL = adoptedOf opened cur m := by
          simp [adoptedOf, hcur0]
        have hl1b : lookupA (setA st m []) m = some ([] : List OrderId) :=
          lookupA_setA_self st m []
        have hvND : (([] : List OrderId) ++ storeAdoptGo (lookupA opened m) curL).Nodup := by
          rw [List.nil_append, hadopt]
          exact hadND
        have hst2 : ∀ p ∈ setA (setA st m []) m ([] ++ storeAdoptGo (lookupA opened m) curL),
            (p.2).Nodup := setA_nodup_values _ m _ hst1 hvND
        simp only [storeGo, hst0, hcur0, hl1b, Option.getD_some]
        exact ih _ hrnd hst2 hcur
          (hdisj' _ (fun m' hm' => by
            have hne : m' ≠ m := fun he => hmn (he ▸ hm')
            rw [lookupA_setA_ne _ m m' _ hne, lookupA_setA_ne _ m m' _ hne]))
    | some lst =>
      have hlstND : lst.Nodup := lookupA_nodup st m lst hst hst0
      cases hcur0 : lookupA cur m with
      | none =>
        simp only [storeGo, hst0, hcur0]
        exact ih st hrnd hst hcur
          (fun m' hm' => hdisj m' (List.mem_cons_of_mem m hm'))
      | some curL =>
        have hadopt : storeAdoptGo (lookupA opened m) curL = adoptedOf opened cur m := by
          simp [adoptedOf, hcur0]
        have hvND : (lst ++ storeAdoptGo (lookupA opened m) curL).Nodup := by
          rw [hadopt]
          refine List.Nodup.append hlstND hadND ?_
          rw [List.disjoint_right]
          intro oid hoid
          exact hdisj m (List.mem_cons_self m rest) oid hoid lst hst0
        have hst2 : ∀ p ∈ setA st m (lst ++ storeAdoptGo (lookupA opened m) curL),
            (p.2).Nodup := setA_nodup_values st m _ hst hvND
        simp only [storeGo, hst0, hcur0, Option.getD_some]
        exact ih _ hrnd hst2 hcur
          (hdisj' _ (fun m' hm' => lookupA_setA_ne st m m' _
            (fun he => hmn (he ▸ hm'))))

/-! ## Cancellation-planner lemmas -/

theorem addOrderSet_mem (s : List OrderId) (x oid : OrderId)
    (h : oid ∈ addOrderSet s x) : oid ∈ s ∨ oid = x := by
  unfold addOrderSet at h
  by_cases hx : x ∈ s
  · rw [if_pos hx] at h
    exact Or.inl h
  · rw [if_neg hx] at h
    rcases List.mem_append.mp h with h1 | h2
    · exact Or.inl h1
    · exact Or.inr (by simpa using h2)

theorem addMineMatching_mem (stOrders : Orders) (m : Market) (side : String) :
    ∀ (l : List OpenOrder) (acc : List OrderId) (oid : OrderId),
      oid ∈ addMineMatching stOrders m side l acc →
      oid ∈ acc ∨ ∃ ids, lookupA stOrders m = some ids ∧ oid ∈ ids := by
  intro l
  induction l with
  | nil => intro acc oid h; exact Or.inl h
  | cons o rest ih =>
    intro acc oid h
    simp only [addMineMatching] at h
    cases hlk : lookupA stOrders m with
    | none =>
      simp only [hlk] at h
      rw [← hlk]
      exact ih acc oid h
    | some ids =>
      simp only [hlk] at h
      rw [← hlk]
      by_cases ho : o.orderNumber ∈ ids
      · rw [if_pos ho] at h
        by_cases hs : sideMatches o side = true
        · rw [if_pos hs] at h
          rcases ih _ oid h with h1 | h2
          · rcases addOrderSet_mem acc o.orderNumber oid h1 with ha | hb
            · exact Or.inl ha
            · exact Or.inr ⟨ids, hlk, hb ▸ ho⟩
          · exact Or.inr h2
        · rw [if_neg hs] at h
          exact ih acc oid h
      · rw [if_neg ho] at h
        exact ih acc oid h

theorem cancelMineGo_mem (cur : FullSnapshot) (stOrders : Orders) (side : String) :
    ∀ (ms : List Market) (acc S : List OrderId),
      cancelMineGo cur stOrders side ms acc = .ok S →
      ∀ oid ∈ S, oid ∈ acc ∨ ∃ m ∈ ms, ∃ ids, lookupA stOrders m = some ids ∧ oid ∈ ids := by
  intro ms
  induction ms with
  | nil =>
    intro acc S h oid hoid
    simp only [cancelMineGo, Except.ok.injEq] at h
    subst h
    exact Or.inl hoid
  | cons m rest ih =>
    intro acc S h oid hoid
    simp only [cancelMineGo] at h
    cases hlk : lookupA cur m with
    | none =>
      simp only [hlk] at h
      exact absurd h (by simp)
    | some l =>
      simp only [hlk] at h
      rcases ih _ S h oid hoid with h1 | h2
      · rcases addMineMatching_mem stOrders m side l acc oid h1 with ha | hb
        · exact Or.inl ha
        · obtain ⟨ids, hi, ho⟩ := hb
          exact Or.inr ⟨m, by simp, ids, hi, ho⟩
      · obtain ⟨m2, hm2, hrest⟩ := h2
        exact Or.inr ⟨m2, List.mem_cons_of_mem m hm2, hrest⟩

theorem cancelAllGo_append (cur : FullSnapshot) (side : String) :
    ∀ (a b : List Market) (acc : List OrderId),
      cancelAllGo cur side (a ++ b) acc =
        cancelAllGo cur side b (cancelAllGo cur side a acc) := by
  intro a
  induction a with
  | nil => intro b acc; rfl
  | cons m rest ih =>
    intro b acc
    cases hlk : lookupA cur m with
    | none =>
      simp only [cancelAllGo, List.cons_append, hlk]
      exact ih b acc
    | some l =>
      simp only [cancelAllGo, List.cons_append, hlk]
      exact ih b _

theorem cancelMineGo_append (cur : FullSnapshot) (stOrders : Orders) (side : String) :
    ∀ (a b : List Market) (acc : List OrderId),
      cancelMineGo cur stOrders side (a ++ b) acc =
        (match cancelMineGo cur stOrders side a acc with
          | .ok acc2 => cancelMineGo cur stOrders side b acc2
          | .error e => .error e) := by
  intro a
  induction a with
  | nil => intro b acc; rfl
  | cons m rest ih =>
    intro b acc
    cases hlk : lookupA cur m with
    | none => simp only [cancelMineGo, List.cons_append, hlk]
    | some l =>
      simp only [cancelMineGo, List.cons_append, hlk]
      exact ih b _

theorem cancelThisGo_append (cur : FullSnapshot) (side : String) :
    ∀ (a b : List Market) (acc : List OrderId),
      cancelThisGo cur side (a ++ b) acc =
        (match cancelThisGo cur side a acc with
          | .ok acc2 => cancelThisGo cur side b acc2
          | .error e => .error e) := by
  intro a
  induction a with
  | nil => intro b acc; rfl
  | cons m rest ih =>
    intro b acc
    cases hlk : lookupA cur m with
    | none => simp only [cancelThisGo, List.cons_append, hlk]
    | some l =>
      simp only [cancelThisGo, List.cons_append, hlk]
      exact ih b _

/-- A market key of length 1 cannot occur in a snapshot whose keys all have
length at least 2. -/
theorem lookupA_short_none {α : Type} :
    ∀ (cur : List (String × α)), (∀ p ∈ cur, 2 ≤ p.1.length) →
      ∀ (c : String), c.length = 1 → lookupA cur c = none := by
  intro cur
  induction cur with
  | nil => intro _ c _; rfl
  | cons p rest ih =>
    intro h c hc
    obtain ⟨k, v⟩ := p
    have hk : 2 ≤ k.length := h (k, v) (by simp)
    have hne : ¬(k = c) := by
      intro he
      rw [he, hc] at hk
      omega
    simp only [lookupA, if_neg hne]
    exact ih (fun q hq => h q (List.mem_cons_of_mem _ hq)) c hc

/-! ## Concrete evaluations of the removal loop -/

theorem pyForRemove_xy :
    pyForRemove [] 0 ["x", "y"] = (["y"], ["x"]) := by
  have h0 : (0 : Nat) < (["x", "y"] : List OrderId).length := by simp
  have hx : (["x", "y"] : List OrderId)[0] ∉ ([] : List OrderId) := by simp
  rw [pyForRemove_dead [] 0 ["x", "y"] h0 hx]
  have hg : (["x", "y"] : List OrderId)[0] = "x" := rfl
  rw [hg]
  have he : (["x", "y"] : List OrderId).erase "x" = ["y"] := by decide
  rw [he]
  rw [pyForRemove_stop [] 1 ["y"] (by simp)]

theorem pyForRemove_y :
    pyForRemove [] 0 ["y"] = ([], ["y"]) := by
  have h0 : (0 : Nat) < (["y"] : List OrderId).length := by simp
  have hx : (["y"] : List OrderId)[0] ∉ ([] : List OrderId) := by simp
  rw [pyForRemove_dead [] 0 ["y"] h0 hx]
  have hg : (["y"] : List OrderId)[0] = "y" := rfl
  rw [hg]
  have he : (["y"] : List OrderId).erase "y" = [] := by decide
  rw [he]
  rw [pyForRemove_stop [] 1 [] (by simp)]

theorem loadMarketGo_xy :
    loadMarketGo [("M", ([] : List OrderId))] true ["M"] [("M", ["x", "y"])] =
      .ok ([("M", ["y"])], ["x"]) := by
  have h1 : lookupA ([("M", ["x", "y"])] : Orders) "M" = some ["x", "y"] := by
    simp [lookupA]
  have h2 : lookupA ([("M", ([] : List OrderId))] : IdsSnapshot) "M" = some [] := by
    simp [lookupA]
  simp [loadMarketGo, h1, h2, pyForRemove_xy, setA]

theorem loadMarketGo_y :
    loadMarketGo [("M", ([] : List OrderId))] true ["M"] [("M", ["y"])] =
      .ok ([("M", ([] : List OrderId))], ["y"]) := by
  have h1 : lookupA ([("M", ["y"])] : Orders) "M" = some ["y"] := by
    simp [lookupA]
  have h2 : lookupA ([("M", ([] : List OrderId))] : IdsSnapshot) "M" = some [] := by
    simp [lookupA]
  simp [loadMarketGo, h1, h2, pyForRemove_y, setA]

/-! ## Claim theorems -/

/-- C1 (confirmed): for every Gateway snapshot and ledger state, the candidate
set computed by `cancel_mine(markets, "both")` contains only ids recorded in
the bot's own `state["orders"][m]` for some market `m` of `markets`; it never
contains an id absent from the ledger. -/
theorem cancel_mine_ownership (markets : List Market) (cur : FullSnapshot) (st : Orders)
    (S : List OrderId) (h : cancel_mine_candidates markets cur st "both" = .ok S) :
    ∀ oid ∈ S, ∃ m ∈ markets, ∃ ids, lookupA st m = some ids ∧ oid ∈ ids := by
  intro oid hoid
  rcases cancelMineGo_mem cur st "both" markets [] S h oid hoid with h1 | h2
  · simp at h1
  · exact h2

/-- Witness for C1 at a concrete snapshot and ledger. -/
theorem cancel_mine_ownership_witness :
    ∃ m ∈ (["M"] : List Market), ∃ ids,
      lookupA ([("M", ["o1"])] : Orders) m = some ids ∧ "o1" ∈ ids :=
  cancel_mine_ownership ["M"] [("M", [⟨"o1", "sell"⟩])] [("M", ["o1"])] ["o1"]
    rfl "o1" (by decide)

/-- C2 (corrected) counterexample: with `orders["M"] = [x, y]` and an empty
live-id set for "M", reconciliation removes and notifies only `x`; the dead
id `y`, adjacent to the removed `x`, is skipped by the mutate-while-iterating
loop, stays in the ledger and receives no `orderFilled` call — refuting the
claim that every dead id is removed and notified. -/
theorem loadMarket_adjacent_fill_cex :
    loadMarket ["M"] [("M", ([] : List OrderId))] true [("M", ["x", "y"])] =
      .ok ([("M", ["y"])], ["x"]) :=
  loadMarketGo_xy

/-- C2 (amended): provided no two consecutive recorded ids of a market are
both dead (and the recorded lists are duplicate-free, every non-trivially
served market present in the snapshot), `loadMarket` removes exactly the
recorded ids absent from the live snapshot, leaves live ids untouched and
notifies `orderFilled` once per removed id — the spec's reconciliation.  The
spec's own example `[a, b, c]` against live `{a, c}` satisfies the proviso. -/
theorem loadMarket_fill_detection (settMarkets : List Market) (cur : IdsSnapshot)
    (st : Orders) (hm : settMarkets.Nodup)
    (h : ∀ m ∈ settMarkets, ((lookupA st m).getD []).Nodup ∧
      List.Chain' (fun a b => a ∈ liveOf cur m ∨ b ∈ liveOf cur m) ((lookupA st m).getD []) ∧
      ((lookupA st m).getD [] ≠ [] → (lookupA cur m).isSome)) :
    loadMarket settMarkets cur true st =
      .ok (reconcileSpec cur settMarkets st, reconcileFillsSpec cur settMarkets st) :=
  loadMarketGo_reconcile cur settMarkets st hm h

/-- Witness for C2 (amended) at the spec's example: ledger `[a, b, c]`,
live ids `[a, c]`. -/
theorem loadMarket_fill_detection_witness :
    loadMarket ["M"] [("M", ["a", "c"])] true [("M", ["a", "b", "c"])] =
      .ok (reconcileSpec [("M", ["a", "c"])] ["M"] [("M", ["a", "b", "c"])],
        reconcileFillsSpec [("M", ["a", "c"])] ["M"] [("M", ["a", "b", "c"])]) :=
  loadMarket_fill_detection ["M"] [("M", ["a", "c"])] [("M", ["a", "b", "c"])]
    (by decide)
    (by
      intro m hm
      have hm2 : m = "M" := by simpa using hm
      subst hm2
      exact ⟨by decide, by simp [lookupA, liveOf, List.chain'_cons], by decide⟩)

/-- C3 (corrected) counterexample: with `orders["M"] = [x, y]` and no live
orders, the first `loadMarket` run removes only `x` (the adjacent dead `y` is
skipped) and the second run removes `y` and emits a fresh `orderFilled`
notification — running twice is not the same as running once. -/
theorem loadMarket_idempotence_cex :
    loadMarket ["M"] [("M", ([] : List OrderId))] true [("M", ["x", "y"])] =
      .ok ([("M", ["y"])], ["x"]) ∧
    loadMarket ["M"] [("M", ([] : List OrderId))] true [("M", ["y"])] =
      .ok ([("M", ([] : List OrderId))], ["y"]) :=
  ⟨loadMarketGo_xy, loadMarketGo_y⟩

/-- C3 (amended): under the same proviso as fill detection (no two
consecutive recorded ids both dead, duplicate-free lists), one `loadMarket`
run reaches the spec's reconciled state, and a second run on that state is a
no-op: it succeeds, changes nothing and emits no fill notification. -/
theorem loadMarket_idempotent (settMarkets : List Market) (cur : IdsSnapshot)
    (st : Orders) (hm : settMarkets.Nodup)
    (h : ∀ m ∈ settMarkets, ((lookupA st m).getD []).Nodup ∧
      List.Chain' (fun a b => a ∈ liveOf cur m ∨ b ∈ liveOf cur m) ((lookupA st m).getD []) ∧
      ((lookupA st m).getD [] ≠ [] → (lookupA cur m).isSome)) :
    loadMarket settMarkets cur true st =
      .ok (reconcileSpec cur settMarkets st, reconcileFillsSpec cur settMarkets st) ∧
    loadMarket settMarkets cur true (reconcileSpec cur settMarkets st) =
      .ok (reconcileSpec cur settMarkets st, []) := by
  refine ⟨loadMarketGo_reconcile cur settMarkets st hm h, ?_⟩
  apply loadMarketGo_all_live
  intro m hmem
  have hlk := reconcileSpec_lookup_mem cur settMarkets st m hm hmem
  constructor
  · intro x hx
    rw [hlk] at hx
    cases hst : lookupA st m with
    | none =>
      rw [hst] at hx
      simp at hx
    | some lst =>
      rw [hst] at hx
      simp at hx
      exact hx.2
  · intro hne
    have h3 := (h m hmem).2.2
    cases hst : lookupA st m with
    | none =>
      rw [hlk, hst] at hne
      simp at hne
    | some lst =>
      rw [hst] at h3
      apply h3
      simp only [Option.getD_some]
      intro hc
      rw [hlk, hst, hc] at hne
      simp at hne

/-- Witness for C3 (amended) at the spec's example. -/
theorem loadMarket_idempotent_witness :
    loadMarket ["M"] [("M", ["a", "c"])] true [("M", ["a", "b", "c"])] =
      .ok (reconcileSpec [("M", ["a", "c"])] ["M"] [("M", ["a", "b", "c"])],
        reconcileFillsSpec [("M", ["a", "c"])] ["M"] [("M", ["a", "b", "c"])]) ∧
    loadMarket ["M"] [("M", ["a", "c"])] true
        (reconcileSpec [("M", ["a", "c"])] ["M"] [("M", ["a", "b", "c"])]) =
      .ok (reconcileSpec [("M", ["a", "c"])] ["M"] [("M", ["a", "b", "c"])], []) :=
  loadMarket_idempotent ["M"] [("M", ["a", "c"])] [("M", ["a", "b", "c"])]
    (by decide)
    (by
      intro m hm
      have hm2 : m = "M" := by simpa using hm
      subst hm2
      exact ⟨by decide, by simp [lookupA, liveOf, List.chain'_cons], by decide⟩)

/-- C4 (corrected) counterexample: the Gateway cancel raises for "o1"
(`fails` is constantly true), yet `_cancel_set` still removes "o1" from the
market list and counts the attempt — the ledger IS mutated for the failed
id, refuting the claim that it remains recorded. -/
theorem cancel_failed_removal_cex :
    cancelSet (fun _ => true) ["o1"] [("M", ["o1"])] =
      ⟨1, [("M", [])], ["o1"], ["o1"]⟩ := rfl

/-- C4 (amended): on a failed cancel attempt the id is nonetheless removed
from every (duplicate-free) market list of the ledger — ledger mutation is
gated on the attempt, not on Gateway success, exactly as for a successful
cancel. -/
theorem cancel_failed_attempt_still_removes (fails : OrderId → Bool)
    (toCancel : List OrderId) (st : Orders) (hnd : ∀ p ∈ st, (p.2).Nodup) :
    ∀ oid ∈ toCancel, ∀ p ∈ (cancelSet fails toCancel st).orders, oid ∉ p.2 :=
  cancelSet_removes_all fails toCancel st hnd

/-- Witness for C4 (amended): after a failing batch over ["o1"], the surviving
market entry ("M", ["o2"]) no longer contains "o1". -/
theorem cancel_failed_attempt_still_removes_witness :
    "o1" ∉ (("M", ["o2"]) : Market × List OrderId).2 :=
  cancel_failed_attempt_still_removes (fun _ => true) ["o1"] [("M", ["o1", "o2"])]
    (by decide) "o1" (by decide) ("M", ["o2"]) (by decide)

/-- C5 (confirmed): when the Gateway cancel raises for exactly one of the N
candidate ids, `_cancel_set` still issues a cancel attempt for every candidate
(the remaining N−1 included) and returns N — the number of ids attempted, not
the number confirmed canceled by the exchange. -/
theorem cancel_partial_failure (fails : OrderId → Bool) (toCancel : List OrderId)
    (st : Orders) (hone : (toCancel.filter fails).length = 1) :
    (cancelSet fails toCancel st).attempts = toCancel ∧
    (cancelSet fails toCancel st).numCanceled = toCancel.length :=
  cancelSet_count fails toCancel st

/-- Witness for C5: three candidates, exactly "o2" fails. -/
theorem cancel_partial_failure_witness :
    (cancelSet (fun x => x == "o2") ["o1", "o2", "o3"] []).attempts =
      ["o1", "o2", "o3"] ∧
    (cancelSet (fun x => x == "o2") ["o1", "o2", "o3"] []).numCanceled =
      (["o1", "o2", "o3"] : List OrderId).length :=
  cancel_partial_failure (fun x => x == "o2") ["o1", "o2", "o3"] [] (by decide)

/-- C6 (confirmed): the bookkeeping pass of `store` appends to `orders[m]`,
for every served market `m` present in the current snapshot, exactly the
snapshot ids absent from the previously recorded `opened_orders` snapshot,
passing each to `orderPlaced` (once per id when the snapshot entry has no
duplicates); ids already present in the previous snapshot are not re-added. -/
theorem store_adoption (settMarkets : List Market) (opened cur : IdsSnapshot)
    (st : Orders) (hm : settMarkets.Nodup) :
    (∀ m ∈ settMarkets, lookupA (store settMarkets opened cur st).1 m =
      some ((lookupA st m).getD [] ++ adoptedOf opened cur m)) ∧
    (store settMarkets opened cur st).2 =
      (settMarkets.map (adoptedOf opened cur)).flatten ∧
    (∀ m oid, oid ∈ adoptedOf opened cur m ↔ ∃ curL, lookupA cur m = some curL ∧
      oid ∈ curL ∧ ∀ ol, lookupA opened m = some ol → oid ∉ ol) ∧
    (∀ m curL, lookupA cur m = some curL → curL.Nodup →
      (adoptedOf opened cur m).Nodup) := by
  obtain ⟨h1, h2, h3⟩ := storeGo_spec opened cur settMarkets st hm
  refine ⟨h1, h3, ?_, ?_⟩
  · intro m oid
    unfold adoptedOf
    cases hcur : lookupA cur m with
    | none => simp
    | some curL =>
      show oid ∈ storeAdoptGo (lookupA opened m) curL ↔ _
      rw [storeAdoptGo_eq_filter]
      cases hop : lookupA opened m with
      | none => simp [List.mem_filter]
      | some ol => simp [List.mem_filter]
  · intro m curL hcur hnd
    apply adoptedOf_nodup
    intro c hc
    rw [hcur] at hc
    injection hc with hcc
    rw [← hcc]
    exact hnd

/-- Witness for C6 at the spec's example: previous snapshot `[a]`, current
snapshot `[a, d]` — only `d` is appended. -/
theorem store_adoption_witness :
    lookupA (store ["M"] [("M", ["a"])] [("M", ["a", "d"])] [("M", ["a"])]).1 "M" =
      some ((lookupA ([("M", ["a"])] : Orders) "M").getD [] ++
        adoptedOf [("M", ["a"])] [("M", ["a", "d"])] "M") :=
  (store_adoption ["M"] [("M", ["a"])] [("M", ["a", "d"])] [("M", ["a"])]
    (by decide)).1 "M" (by decide)

/-- C7 (corrected) counterexample: market "M" is entirely absent from the
live-ids mapping while the ledger records ["a"]; `loadMarket` raises
`KeyError` at `cur_orders[market]` (modelled `.error`, carrying the untouched
state and no notification) instead of treating the recorded id as filled. -/
theorem loadMarket_absent_market_cex :
    loadMarket ["M"] [] true [("M", ["a"])] = .error ([("M", ["a"])], []) := rfl

/-- C7 (amended): a served market absent from the live-ids mapping is treated
as empty only when the ledger records no id for it (ledger key absent or
mapped to the empty list); under that condition reconciliation completes
without raising.  With at least one recorded id it raises KeyError instead
(see the counterexample). -/
theorem loadMarket_absent_market_empty (settMarkets : List Market) (cur : IdsSnapshot)
    (st : Orders) (notify : Bool)
    (h : ∀ m ∈ settMarkets, lookupA cur m = none → (lookupA st m).getD [] = []) :
    ∃ st' fills, loadMarket settMarkets cur notify st = .ok (st', fills) :=
  loadMarketGo_absent cur notify settMarkets st h

/-- Witness for C7 (amended): absent market, empty recorded list. -/
theorem loadMarket_absent_market_empty_witness :
    ∃ st' fills,
      loadMarket ["M"] [] true [("M", ([] : List OrderId))] = .ok (st', fills) :=
  loadMarket_absent_market_empty ["M"] [] [("M", [])] true (by decide)

/-- C8 (corrected) counterexample: a market listed in `markets` but absent
from the Gateway snapshot makes `cancel_mine` raise `KeyError`
(`curOrders[m]` is accessed unguarded), rather than contributing nothing and
completing normally. -/
theorem cancel_absent_market_cex :
    cancel_mine_candidates ["M"] [] [("M", ["a"])] "both" = .error () := rfl

/-- C8 (amended): a market whose snapshot entry is the empty list contributes
no candidate ids and causes no error in all three scopes; a market absent
from the snapshot mapping is tolerated only by `cancel_all` (whose
`if m in curOrders` guard skips it), while `cancel_mine` and
`cancel_this_markets` raise KeyError (see the counterexample). -/
theorem empty_market_contributes_nothing (ms : List Market) (x : Market)
    (cur : FullSnapshot) (st : Orders) (side : String)
    (hx : lookupA cur x = some []) :
    cancel_all_candidates (ms ++ [x]) cur side = cancel_all_candidates ms cur side ∧
    cancel_mine_candidates (ms ++ [x]) cur st side =
      cancel_mine_candidates ms cur st side ∧
    cancel_this_markets_candidates (ms ++ [x]) cur side =
      cancel_this_markets_candidates ms cur side ∧
    (∀ y, lookupA cur y = none →
      cancel_all_candidates (ms ++ [y]) cur side = cancel_all_candidates ms cur side) := by
  refine ⟨?_, ?_, ?_, ?_⟩
  · unfold cancel_all_candidates
    rw [cancelAllGo_append]
    simp only [cancelAllGo, hx, addAllMatching]
  · unfold cancel_mine_candidates
    rw [cancelMineGo_append]
    cases hr : cancelMineGo cur st side ms [] with
    | ok acc2 =>
      show cancelMineGo cur st side [x] acc2 = .ok acc2
      simp only [cancelMineGo, hx, addMineMatching]
    | error e => rfl
  · unfold cancel_this_markets_candidates
    rw [cancelThisGo_append]
    cases hr : cancelThisGo cur side ms [] with
    | ok acc2 =>
      show cancelThisGo cur side [x] acc2 = .ok acc2
      simp only [cancelThisGo, hx, addAllMatching]
    | error e => rfl
  · intro y hy
    unfold cancel_all_candidates
    rw [cancelAllGo_append]
    simp only [cancelAllGo, hy]

/-- Witness for C8 (amended): market "E" has an empty snapshot entry and
contributes nothing to `cancel_all`. -/
theorem empty_market_contributes_nothing_witness :
    cancel_all_candidates (["A"] ++ ["E"]) [("A", [⟨"o1", "sell"⟩]), ("E", [])] "both" =
      cancel_all_candidates ["A"] [("A", [⟨"o1", "sell"⟩]), ("E", [])] "both" :=
  (empty_market_contributes_nothing ["A"] "E" [("A", [⟨"o1", "sell"⟩]), ("E", [])]
    [("A", ["o1"])] "both" rfl).1

/-- C9 (corrected) counterexample: starting from a restored ledger that
already records "d", with `opened_orders` still at its initial empty value,
one `store` bookkeeping pass appends "d" again: `orders["M"]` becomes
["d", "d"] — the uniqueness invariant is broken by this mutation path. -/
theorem store_duplicate_cex :
    (store ["M"] [] [("M", ["d"])] [("M", ["d"])]).1 = [("M", ["d", "d"])] ∧
    ¬ (["d", "d"] : List OrderId).Nodup := ⟨rfl, by decide⟩

/-- C9 (amended): per-market uniqueness is preserved by the removal paths
unconditionally — reconciliation (`loadMarket`) and batch cancellation
(`_cancel_set`) keep every market list duplicate-free — and by the `store`
adoption path only under the precondition that no adopted id is already
recorded for its market (the code performs no duplicate check against
`orders[m]`, so without that precondition duplicates arise, as the
counterexample shows). -/
theorem uniqueness_preservation :
    (∀ (cur : IdsSnapshot) (notify : Bool) (markets : List Market)
      (st st' : Orders) (fills : List OrderId), (∀ p ∈ st, (p.2).Nodup) →
      loadMarketGo cur notify markets st = .ok (st', fills) →
      ∀ p ∈ st', (p.2).Nodup) ∧
    (∀ (fails : OrderId → Bool) (toCancel : List OrderId) (st : Orders),
      (∀ p ∈ st, (p.2).Nodup) →
      ∀ p ∈ (cancelSet fails toCancel st).orders, (p.2).Nodup) ∧
    (∀ (opened cur : IdsSnapshot) (markets : List Market) (st : Orders),
      markets.Nodup → (∀ p ∈ st, (p.2).Nodup) →
      (∀ m curL, lookupA cur m = some curL → curL.Nodup) →
      (∀ m ∈ markets, ∀ oid ∈ adoptedOf opened cur m,
        ∀ l, lookupA st m = some l → oid ∉ l) →
      ∀ p ∈ (storeGo opened cur markets st).1, (p.2).Nodup) :=
  ⟨fun cur notify markets st st' fills h1 h2 =>
      loadMarketGo_nodup cur notify markets st st' fills h1 h2,
    fun fails toCancel st h => cancelSet_nodup fails toCancel st h,
    fun opened cur markets st h1 h2 h3 h4 =>
      storeGo_nodup opened cur markets st h1 h2 h3 h4⟩

/-- Witness for C9 (amended): the cancellation path keeps ("M", ["b"])
duplicate-free after canceling "a" from ["a", "b"]. -/
theorem uniqueness_preservation_witness :
    ((("M", ["b"]) : Market × List OrderId).2).Nodup :=
  uniqueness_preservation.2.1 (fun _ => false) ["a"] [("M", ["a", "b"])]
    (by decide) ("M", ["b"]) (by decide)

/-- C10 (confirmed): `cancel_all_sell_orders()` runs `cancel_all("sell")`,
whose positional string binds to `markets` (so `side` stays "both" and no
side filtering happens); the market loop iterates the characters "s", "e",
"l", "l" as market names, so on any snapshot whose market keys all have
length at least 2 it selects no orders, cancels nothing, returns 0 and
leaves the ledger unchanged. -/
theorem cancel_all_sell_orders_cancels_nothing (cur : FullSnapshot)
    (fails : OrderId → Bool) (st : Orders) (h : ∀ p ∈ cur, 2 ≤ p.1.length) :
    cancel_all_sell_orders cur fails st = ⟨0, st, [], []⟩ ∧
    cancel_all_candidates (pyStrChars "sell") cur "both" = [] := by
  have hchars : pyStrChars "sell" = ["s", "e", "l", "l"] := rfl
  have hs : lookupA cur "s" = none := lookupA_short_none cur h "s" rfl
  have hel : lookupA cur "e" = none := lookupA_short_none cur h "e" rfl
  have hl : lookupA cur "l" = none := lookupA_short_none cur h "l" rfl
  have hcand : cancel_all_candidates (pyStrChars "sell") cur "both" = [] := by
    unfold cancel_all_candidates
    rw [hchars]
    simp only [cancelAllGo, hs, hel, hl]
  refine ⟨?_, hcand⟩
  unfold cancel_all_sell_orders cancel_all
  rw [hcand]
  rfl

/-- Witness for C10: a realistic snapshot keyed by "USD_BTS". -/
theorem cancel_all_sell_orders_cancels_nothing_witness :
    cancel_all_sell_orders [("USD_BTS", [⟨"o1", "sell"⟩])] (fun _ => false)
        [("USD_BTS", ["o1"])] =
      ⟨0, [("USD_BTS", ["o1"])], [], []⟩ ∧
    cancel_all_candidates (pyStrChars "sell")
      [("USD_BTS", [⟨"o1", "sell"⟩])] "both" = [] :=
  cancel_all_sell_orders_cancels_nothing [("USD_BTS", [⟨"o1", "sell"⟩])]
    (fun _ => false) [("USD_BTS", ["o1"])] (by decide)

end StakeMachine
